import Mathlib

/-!
Shallow embedding of the photo_utils classification-and-relocation engine
(`utils.py`) and proofs of the specification's claims about it.

File names and directory components are modelled as lists of characters;
a filesystem is the list of files the directory walk visits, each with the
content the program can observe (stat size, the first bytes decoded as text,
and the XML parse outcome), together with the set of existing directories.
-/

set_option maxRecDepth 8000

namespace PhotoUtils

/-- Characters of a file or directory name. -/
abbrev Name := List Char

/-- Python str.lower on a name, character by character. -/
def pyLower (s : Name) : Name := s.map Char.toLower

/-- Python str.strip: remove leading and trailing whitespace. -/
def pyStrip (s : Name) : Name :=
  ((s.dropWhile Char.isWhitespace).reverse.dropWhile Char.isWhitespace).reverse

/-- Whether the needle occurs as a contiguous substring of the haystack
(Python's `in` operator on strings). -/
def containsSub (needle : Name) : Name → Bool
  | [] => needle.isEmpty
  | c :: t => needle.isPrefixOf (c :: t) || containsSub needle t

/-- Scan a reversed name up to its first dot, i.e. the last dot of the original
name: returns the characters after that dot (reversed) and before it (reversed),
or none when the name has no dot. -/
def revTakeToDot : List Char → Option (List Char × List Char)
  | [] => none
  | c :: t =>
    if c = '.' then some ([], t)
    else
      match revTakeToDot t with
      | none => none
      | some (ext, rest) => some (c :: ext, rest)

/-- Python pathlib `suffix` of a file name: the final dot-extension, empty when
the name has no dot, when its only dot is the leading character, or when the
dot is the final character. -/
def pySuffix (s : Name) : Name :=
  match revTakeToDot s.reverse with
  | none => []
  | some (ext, rest) => if rest = [] ∨ ext = [] then [] else '.' :: ext.reverse

/-- A file name minus its pathlib suffix. -/
def pyStem (s : Name) : Name := s.take (s.length - (pySuffix s).length)

/-- Python pathlib `with_suffix`: drop the current suffix, append the new one. -/
def pyWithSuffix (s suf : Name) : Name := pyStem s ++ suf

/-- A filesystem path: directory components plus the file name. -/
structure PPath where
  dir : List Name
  name : Name
deriving DecidableEq, Repr

/-- Replace the file-name component of a path. -/
def withName (p : PPath) (n : Name) : PPath := { p with name := n }

/-- The immediate parent directory name of a path, `photo.parents[0].name`
in the source; empty for a bare relative file name. -/
def parentName (p : PPath) : Name := p.dir.getLastD []

/-- A parsed XMP document as far as flag extraction observes it: the text of
each label element found by the namespace searches, in document order (none
when the element has no text), and for each rdf:Description element the value
of its xmp:Label attribute (none when the attribute is absent). -/
structure XmpDoc where
  labelElems : List (Option Name)
  descAttrs : List (Option Name)
deriving DecidableEq, Repr

/-- Outcome of ET.parse on a sidecar file: a parsed document, a structural
XML parse error, or a text-decoding error. -/
inductive ParseOutcome where
  | ok (doc : XmpDoc)
  | parseError (msg : Name)
  | decodeError (msg : Name)
deriving DecidableEq, Repr

/-- Observable content of a file: the stat size (none when stat raises
OSError), the first 100 bytes decoded permissively as text (none when the
read raises OSError; permissive decoding itself never fails), and the XML
parse outcome. -/
structure FileContent where
  size : Option Nat
  head : Option Name
  parse : ParseOutcome
deriving DecidableEq, Repr

/-- The tree walked by the program: the files the walk visits, in walk order,
each with its content, plus the directories that exist. -/
structure FS where
  files : List (PPath × FileContent)
  dirs : List (List Name)
deriving DecidableEq, Repr

/-- Look a path up in a file list. -/
def lookupFiles (x : PPath) : List (PPath × FileContent) → Option FileContent
  | [] => none
  | e :: t => if e.1 = x then some e.2 else lookupFiles x t

/-- Content of the file at a path, none when no such file exists. -/
def FS.lookup (fs : FS) (p : PPath) : Option FileContent :=
  lookupFiles p fs.files

/-- Python Path.exists for the modelled tree. -/
def pexists (fs : FS) (p : PPath) : Bool := (fs.lookup p).isSome

/-- Result of `path.stat().st_size`, none when it raises OSError. -/
def statSize (fs : FS) (p : PPath) : Option Nat := (fs.lookup p).bind (·.size)

/-- Result of reading and permissively decoding the first 100 bytes, none when
open/read raises OSError. -/
def readHead (fs : FS) (p : PPath) : Option Name := (fs.lookup p).bind (·.head)

/-- The XML-ish markers the validator sniffs for. -/
def xmpMarkers : List Name :=
  ["<?xml".toList, "<x:xmpmeta".toList, "<rdf:".toList, "xmlns".toList]

/-- Embedding of `is_valid_xmp_file`: reject hidden/resource-fork names, files
whose size is unreadable or below 10 bytes, files whose first bytes cannot be
read, and files whose decoded first bytes show none of the XML markers. -/
def is_valid_xmp_file (fs : FS) (p : PPath) : Bool :=
  if "._".toList.isPrefixOf p.name || ".".toList.isPrefixOf p.name then false
  else
    match statSize fs p with
    | none => false
    | some s =>
      if s < 10 then false
      else
        match readHead fs p with
        | none => false
        | some t => xmpMarkers.any (fun m => containsSub m (pyLower t))

/-- Embedding of `find_xmp_file`: try the appended-suffix sidecar name first,
then the replaced-suffix name; a candidate is taken only when it exists and
passes the validator. -/
def find_xmp_file (fs : FS) (raw : PPath) : Option PPath :=
  let xmp_sidecar := withName raw (pyWithSuffix raw.name (pySuffix raw.name ++ ".xmp".toList))
  if pexists fs xmp_sidecar && is_valid_xmp_file fs xmp_sidecar then some xmp_sidecar
  else
    let xmp_alt := withName raw (pyWithSuffix raw.name ".xmp".toList)
    if pexists fs xmp_alt && is_valid_xmp_file fs xmp_alt then some xmp_alt
    else none

/-- The two flag values the extractor can return (`'red'` / `'green'`). -/
inductive Flag where
  | red
  | green
deriving DecidableEq, Repr

/-- Normalisation applied to a label text: `label.lower().strip()`. -/
def normLabel (t : Name) : Name := pyStrip (pyLower t)

/-- The synonym mapping applied to one label text in the source: red synonyms,
then green synonyms, otherwise nothing. -/
def matchLabel (t : Name) : Option Flag :=
  let v := normLabel t
  if v = "red".toList ∨ v = "reject".toList then some Flag.red
  else if v = "green".toList ∨ v = "approved".toList ∨ v = "select".toList then some Flag.green
  else none

/-- Scan of a list of optional label texts as both loops in `parse_xmp_flag`
do: skip absent or empty texts, return the first text matching a synonym. -/
def scanLabels : List (Option Name) → Option Flag
  | [] => none
  | none :: t => scanLabels t
  | some s :: t =>
    if s = [] then scanLabels t
    else
      match matchLabel s with
      | some f => some f
      | none => scanLabels t

/-- Flag extraction from a parsed document: the rdf:Description attribute scan
runs only when no label element was found; the element scan runs afterwards
(over the empty list in that case). -/
def docFlag (doc : XmpDoc) : Option Flag :=
  match (if doc.labelElems.isEmpty then scanLabels doc.descAttrs else none) with
  | some f => some f
  | none => scanLabels doc.labelElems

/-- Embedding of `parse_xmp_flag`: result flag plus the warning lines logged.
An invalid file yields no flag silently; parse and decode failures are caught,
logged with the file name, and also yield no flag. -/
def parse_xmp_flag (fs : FS) (p : PPath) : Option Flag × List Name :=
  if is_valid_xmp_file fs p = false then (none, [])
  else
    match fs.lookup p with
    | none => (none, [])
    | some c =>
      match c.parse with
      | ParseOutcome.ok doc => (docFlag doc, [])
      | ParseOutcome.parseError e =>
        (none, ["Warning: Skipping malformed XMP File: ".toList ++ p.name ++ ": ".toList ++ e])
      | ParseOutcome.decodeError e =>
        (none, ["Warning: Encoding error in XMP File: ".toList ++ p.name ++ ": ".toList ++ e])

/-- The raw extension set of `find_raw_files`. -/
def rawExtensions : List Name :=
  [".cr2".toList, ".cr3".toList, ".nef".toList, ".arw".toList]

/-- Embedding of `find_raw_files`: every walked file whose lowercased pathlib
suffix is in the raw extension set, in walk order. -/
def find_raw_files (fs : FS) : List PPath :=
  (fs.files.map Prod.fst).filter (fun p => decide (pyLower (pySuffix p.name) ∈ rawExtensions))

/-- The aggregate counters of `analyze_photos`. -/
structure Results where
  red : Nat
  green : Nat
  unflagged : Nat
  total_files : Nat
  skipped_no_xmp : Nat
deriving DecidableEq, Repr

/-- defaultdict(list) extend: append entries at one key, all other keys keep
their value, absent keys read as the empty list. -/
def dextend (d : Name → List PPath) (k : Name) (xs : List PPath) : Name → List PPath :=
  fun q => if q = k then d q ++ xs else d q

/-- One iteration of the classification loop of `analyze_photos`. -/
def analyzeStep (fs : FS) (acc : Results × (Name → List PPath)) (raw : PPath) :
    Results × (Name → List PPath) :=
  match find_xmp_file fs raw with
  | some xmp =>
    let r := { acc.1 with total_files := acc.1.total_files + 1 }
    match (parse_xmp_flag fs xmp).1 with
    | some Flag.red =>
      ({ r with red := r.red + 1 }, dextend acc.2 "red".toList [raw, xmp])
    | some Flag.green =>
      ({ r with green := r.green + 1 }, dextend acc.2 "green".toList [raw, xmp])
    | none =>
      ({ r with unflagged := r.unflagged + 1 }, dextend acc.2 "unflagged".toList [raw, xmp])
  | none => ({ acc.1 with skipped_no_xmp := acc.1.skipped_no_xmp + 1 }, acc.2)

/-- The initial accumulator of `analyze_photos`: zero counters and an empty
defaultdict. -/
def initAcc : Results × (Name → List PPath) := (⟨0, 0, 0, 0, 0⟩, fun _ => [])

/-- Embedding of `analyze_photos`: fold the classification step over the raw
files, starting from zero counters and an empty defaultdict. -/
def analyze_photos (fs : FS) : Results × (Name → List PPath) :=
  (find_raw_files fs).foldl (analyzeStep fs) initAcc

/-- The bucket key string the classification loop uses for a parse result. -/
def bucketKey : Option Flag → Name
  | some Flag.red => "red".toList
  | some Flag.green => "green".toList
  | none => "unflagged".toList

/-- The raw/sidecar pair a raw file contributes to bucket `k`, if any. -/
def pairFor (fs : FS) (k : Name) (raw : PPath) : Option (PPath × PPath) :=
  match find_xmp_file fs raw with
  | none => none
  | some x => if bucketKey (parse_xmp_flag fs x).1 = k then some (raw, x) else none

/-- The ordered raw/sidecar pairs classified into bucket `k`. -/
def classPairs (fs : FS) (k : Name) : List (PPath × PPath) :=
  (find_raw_files fs).filterMap (pairFor fs k)

/-- Remove every entry at a path from a file list (the file is gone). -/
def eraseFile (x : PPath) : List (PPath × FileContent) → List (PPath × FileContent)
  | [] => []
  | e :: t => if e.1 = x then eraseFile x t else e :: eraseFile x t

/-- Write content at a path in a file list, replacing an existing entry. -/
def setFile (x : PPath) (c : FileContent) :
    List (PPath × FileContent) → List (PPath × FileContent)
  | [] => [(x, c)]
  | e :: t => if e.1 = x then (x, c) :: t else e :: setFile x c t

/-- shutil.move of one file: the source entry disappears and its content
appears at the destination path, overwriting any file there. -/
def fsMove (fs : FS) (src dst : PPath) : FS :=
  match fs.lookup src with
  | none => fs
  | some c => { fs with files := setFile dst c (eraseFile src fs.files) }

/-- Record one directory as existing (no duplicates). -/
def addDir (dirs : List (List Name)) (d : List Name) : List (List Name) :=
  if d ∈ dirs then dirs else d :: dirs

/-- The nonempty prefixes of a directory path: the directory itself and every
ancestor, innermost last. -/
def prefixesOf (d : List Name) : List (List Name) :=
  (List.range d.length).map (fun i => d.take (i + 1))

/-- Path.mkdir with parents=True and exist_ok=True: the directory and all its
ancestors exist afterwards. -/
def mkdirAll (dirs : List (List Name)) (d : List Name) : List (List Name) :=
  (prefixesOf d).foldl addDir dirs

/-- The destination path the move loop computes for one bucket file:
`destination_dir / photo.parents[0].name / photo.name`. -/
def mvTarget (destination_dir : List Name) (photo : PPath) : PPath :=
  ⟨destination_dir ++ [parentName photo], photo.name⟩

/-- One iteration of the move loop: create the destination subdirectory (and
missing parents), then move the file there. -/
def moveStep (destination_dir : List Name) (fs : FS) (photo : PPath) : FS :=
  let dir_name := destination_dir ++ [parentName photo]
  let fs1 : FS := { fs with dirs := mkdirAll fs.dirs dir_name }
  fsMove fs1 photo ⟨dir_name, photo.name⟩

/-- Embedding of `move_by_flag_and_copy_dir_structure`: classify, take the
target bucket, move every file in it; also returns the printed moved count. -/
def move_by_flag_and_copy_dir_structure (fs : FS) (flag : Name)
    (destination_dir : List Name) : FS × Nat :=
  let target := (analyze_photos fs).2 flag
  (target.foldl (moveStep destination_dir) fs, target.length)

/-- Run of the unlink loop of `delete_by_flag`. `failing` abstracts which
paths' unlink raises OSError. Returns the unlink calls attempted in order, the
resulting tree, and the uncaught exception if one was raised; the loop body
has no exception handler, so a raise ends the loop. -/
def unlinkRun (failing : List PPath) : FS → List PPath → List PPath × FS × Option Name
  | fs, [] => ([], fs, none)
  | fs, p :: t =>
    if p ∈ failing then ([p], fs, some ("unlink raised: ".toList ++ p.name))
    else
      let rest := unlinkRun failing { fs with files := eraseFile p fs.files } t
      (p :: rest.1, rest.2.1, rest.2.2)

/-- Observable outcome of `delete_by_flag`: the tree afterwards, the unlink
calls attempted, the uncaught exception if any, and the pair count printed by
the summary line (`len(target_photos)/2`), none when no summary was printed. -/
structure DeleteOutcome where
  fs : FS
  attempted : List PPath
  raised : Option Name
  printedPairs : Option ℚ
deriving DecidableEq, Repr

/-- Embedding of `delete_by_flag`: classify, take the target bucket; when not
simulating unlink each file in order (an unhandled failure aborts the loop and
skips the summary line); when simulating, touch nothing and print the count. -/
def delete_by_flag (failing : List PPath) (fs : FS) (flag : Name) (simulate : Bool) :
    DeleteOutcome :=
  let target := (analyze_photos fs).2 flag
  if !simulate then
    let r := unlinkRun failing fs target
    match r.2.2 with
    | some e => ⟨r.2.1, r.1, some e, none⟩
    | none => ⟨r.2.1, r.1, none, some ((target.length : ℚ) / 2)⟩
  else
    ⟨fs, [], none, some ((target.length : ℚ) / 2)⟩

/-- Spec-side wording of the validator (section 4.2 of the spec): not hidden,
size readable and at least 10 bytes, and the decoded first bytes show at least
one case-insensitive XML marker. -/
def spec_is_valid_sidecar (fs : FS) (p : PPath) : Prop :=
  (¬ ".".toList <+: p.name) ∧
  (∃ s, statSize fs p = some s ∧ 10 ≤ s) ∧
  (∃ t, readHead fs p = some t ∧ ∃ m ∈ xmpMarkers, containsSub m (pyLower t) = true)

/-- Spec-side wording of the label synonym mapping: red for `red`/`reject`,
green for `green`/`approved`/`select`, nothing otherwise. -/
def spec_label_flag (t : Name) : Option Flag :=
  if normLabel t = "red".toList ∨ normLabel t = "reject".toList then some Flag.red
  else if normLabel t = "green".toList ∨ normLabel t = "approved".toList ∨
      normLabel t = "select".toList then some Flag.green
  else none

/-- Content of a raw photo file in the worked example (never parsed). -/
def rawContent : FileContent := ⟨some 1000, some [], ParseOutcome.ok ⟨[], []⟩⟩

/-- Raw photo `D/sub1/a.cr2` of the worked example. -/
def rawP : PPath := ⟨["D".toList, "sub1".toList], "a.cr2".toList⟩

/-- Sidecar `D/sub1/a.cr2.xmp` of the worked example, valid, label `Red`. -/
def xmpP : PPath := ⟨["D".toList, "sub1".toList], "a.cr2.xmp".toList⟩

/-- Content of the red-labelled sidecar of the worked example. -/
def xmpRedContent : FileContent :=
  ⟨some 120, some "<?xml version".toList, ParseOutcome.ok ⟨[some "Red".toList], []⟩⟩

/-- Raw photo `D/sub2/b.nef` of the worked example. -/
def rawB : PPath := ⟨["D".toList, "sub2".toList], "b.nef".toList⟩

/-- Sidecar `D/sub2/b.nef.xmp` of the worked example: passes the sniff test
but its XML is malformed. -/
def xmpB : PPath := ⟨["D".toList, "sub2".toList], "b.nef.xmp".toList⟩

/-- Content of the malformed sidecar: valid-looking head, parse error. -/
def xmpBadContent : FileContent :=
  ⟨some 80, some "<x:xmpmeta junk".toList, ParseOutcome.parseError "not well-formed".toList⟩

/-- Raw photo `D/sub1/c.arw` of the worked example, with no sidecar at all. -/
def rawC : PPath := ⟨["D".toList, "sub1".toList], "c.arw".toList⟩

/-- Raw photo `D/sub2/d.cr3` of the worked example. -/
def rawD : PPath := ⟨["D".toList, "sub2".toList], "d.cr3".toList⟩

/-- Sidecar `D/sub2/d.cr3.xmp` of the worked example: valid but carrying no
label element and no label attribute. -/
def xmpD : PPath := ⟨["D".toList, "sub2".toList], "d.cr3.xmp".toList⟩

/-- Content of the label-less sidecar of the worked example. -/
def xmpEmptyContent : FileContent :=
  ⟨some 40, some "<x:xmpmeta".toList, ParseOutcome.ok ⟨[], []⟩⟩

/-- The worked-example tree: a red-flagged pair, a malformed-sidecar pair, a
label-less pair and a sidecar-less raw file. -/
def exFS : FS :=
  { files :=
      [(rawP, rawContent), (xmpP, xmpRedContent),
       (rawB, rawContent), (xmpB, xmpBadContent),
       (rawD, rawContent), (xmpD, xmpEmptyContent),
       (rawC, rawContent)],
    dirs := [[ "D".toList ], ["D".toList, "sub1".toList], ["D".toList, "sub2".toList]] }

theorem containsSub_of_append (n a b : Name) : containsSub n (a ++ (n ++ b)) = true := by
  induction a with
  | nil =>
    cases hn : n ++ b with
    | nil =>
      have : n = [] := by
        cases n with
        | nil => rfl
        | cons c t => simp at hn
      simp [this, containsSub]
    | cons c t =>
      have hpre : n.isPrefixOf (c :: t) = true := by
        rw [ List.isPrefixOf_iff_prefix, ← hn]
        exact List.prefix_append n b
      simp [containsSub, hpre]
  | cons c t ih =>
    have hpre : containsSub n (t ++ (n ++ b)) = true := ih
    simp [containsSub, hpre]

theorem revTakeToDot_decomp {l a b : List Char} (h : revTakeToDot l = some (a, b)) :
    l = a ++ '.' :: b := by
  induction l generalizing a b with
  | nil => simp [revTakeToDot] at h
  | cons c t ih =>
    by_cases hc : c = '.'
    · subst hc
      simp [revTakeToDot] at h
      obtain ⟨ha, hb⟩ := h
      subst ha; subst hb; rfl
    · simp only [revTakeToDot, if_neg hc] at h
      cases ht : revTakeToDot t with
      | none => rw [ht] at h; simp at h
      | some pr =>
        rw [ht] at h
        obtain ⟨e, r⟩ := pr
        simp at h
        obtain ⟨ha, hb⟩ := h
        subst hb
        have := ih ht
        rw [← ha]
        simp [this]

theorem pySuffix_decomp {s : Name} (h : pySuffix s ≠ []) :
    ∃ e rst, revTakeToDot s.reverse = some (e, rst) ∧ rst ≠ [] ∧ e ≠ [] ∧
      pySuffix s = '.' :: e.reverse ∧ s = rst.reverse ++ '.' :: e.reverse := by
  cases hr : revTakeToDot s.reverse with
  | none => exact absurd (by simp [pySuffix, hr]) h
  | some pr =>
    obtain ⟨e, rst⟩ := pr
    by_cases hc : rst = [] ∨ e = []
    · exact absurd (by simp only [pySuffix, hr]; rw [if_pos hc]) h
    · push_neg at hc
      have hsuf : pySuffix s = '.' :: e.reverse := by
        simp [pySuffix, hr, hc.1, hc.2]
      refine ⟨e, rst, rfl, hc.1, hc.2, hsuf, ?_⟩
      have hd := revTakeToDot_decomp hr
      have h2 : s = (e ++ '.' :: rst).reverse := by rw [← hd, List.reverse_reverse]
      rw [h2]
      simp

theorem pyStem_append_pySuffix (s : Name) : pyStem s ++ pySuffix s = s := by
  by_cases h : pySuffix s = []
  · simp [pyStem, h, List.take_length]
  · obtain ⟨e, rst, hr, hrst, he, hsuf, hs⟩ := pySuffix_decomp h
    have hlen : s.length - (pySuffix s).length = rst.length := by
      rw [hsuf]
      conv_lhs => rw [hs]
      simp
    have hstem : pyStem s = rst.reverse := by
      rw [pyStem, hlen]
      conv_lhs => rw [hs]
      exact List.take_left' (by simp)
    rw [hstem, hsuf]
    exact hs.symm

theorem pySuffix_nil : pySuffix ([] : Name) = [] := rfl

theorem pySuffix_ne_nil_of_raw {n : Name} (h : pyLower (pySuffix n) ∈ rawExtensions) :
    pySuffix n ≠ [] := by
  intro hnil
  rw [hnil] at h
  simp [pyLower, rawExtensions] at h

theorem pyStem_ne_nil {n : Name} (h : pySuffix n ≠ []) : pyStem n ≠ [] := by
  obtain ⟨e, rst, hr, hrst, he, hsuf, hs⟩ := pySuffix_decomp h
  have hlen : n.length - (pySuffix n).length = rst.length := by
    rw [hsuf, hs]; simp
  rw [pyStem, hlen, hs, List.take_left' (by simp)]
  simp [hrst]

theorem revTakeToDot_xmp (rs : List Char) :
    revTakeToDot ('p' :: 'm' :: 'x' :: '.' :: rs) = some (['p', 'm', 'x'], rs) := by
  simp [revTakeToDot]

theorem pySuffix_append_xmp {stem : Name} (h : stem ≠ []) :
    pySuffix (stem ++ ".xmp".toList) = ".xmp".toList := by
  have hx : (".xmp".toList : List Char) = ['.', 'x', 'm', 'p'] := rfl
  rw [hx]
  unfold pySuffix
  rw [List.reverse_append]
  have hrev : (['.', 'x', 'm', 'p'] : List Char).reverse = ['p', 'm', 'x', '.'] := rfl
  rw [hrev]
  have : ('p' :: 'm' :: 'x' :: '.' :: stem.reverse : List Char) =
      ['p', 'm', 'x', '.'] ++ stem.reverse := rfl
  rw [← this, revTakeToDot_xmp]
  have hs : stem.reverse ≠ [] := by simpa using h
  simp [hs]

theorem pyLower_xmp : pyLower ".xmp".toList = ".xmp".toList := by decide

theorem xmp_not_rawExt : pyLower ".xmp".toList ∉ rawExtensions := by decide

theorem lookupFiles_isSome_of_mem {p : PPath} {l : List (PPath × FileContent)}
    (h : p ∈ l.map Prod.fst) : (lookupFiles p l).isSome = true := by
  induction l with
  | nil => simp at h
  | cons e t ih =>
    by_cases he : e.1 = p
    · simp [lookupFiles, he]
    · simp only [List.map_cons, List.mem_cons] at h
      rcases h with h | h
    
      · exact absurd h.symm he
      · simp [lookupFiles, he, ih h]

theorem lookupFiles_eraseFile_self (p : PPath) (l : List (PPath × FileContent)) :
    lookupFiles p (eraseFile p l) = none := by
  induction l with
  | nil => rfl
  | cons e t ih =>
    by_cases he : e.1 = p
    · simpa [eraseFile, he] using ih
    · simpa [eraseFile, lookupFiles, he] using ih

theorem lookupFiles_eraseFile_ne {p x : PPath} (l : List (PPath × FileContent))
    (h : p ≠ x) : lookupFiles x (eraseFile p l) = lookupFiles x l := by
  induction l with
  | nil => rfl
  | cons e t ih =>
    by_cases he : e.1 = p
    · have hex : e.1 ≠ x := by rw [he]; exact h
      simp [eraseFile, lookupFiles, he, hex, ih, h]
    · by_cases hex : e.1 = x
      · simp [eraseFile, lookupFiles, he, hex, Ne.symm h]
      · simp [eraseFile, lookupFiles, he, hex, ih]

theorem lookupFiles_setFile_self (p : PPath) (c : FileContent)
    (l : List (PPath × FileContent)) : lookupFiles p (setFile p c l) = some c := by
  induction l with
  | nil => simp [setFile, lookupFiles]
  | cons e t ih =>
    by_cases he : e.1 = p
    · simp [setFile, lookupFiles, he]
    · simp [setFile, lookupFiles, he, ih]

theorem lookupFiles_setFile_ne {p x : PPath} (c : FileContent)
    (l : List (PPath × FileContent)) (h : p ≠ x) :
    lookupFiles x (setFile p c l) = lookupFiles x l := by
  induction l with
  | nil => simp [setFile, lookupFiles, h]
  | cons e t ih =>
    by_cases he : e.1 = p
    · have hx : e.1 = x ↔ False := by
        constructor
        · intro hh; exact h (he ▸ hh ▸ rfl)
        · exact False.elim
      simp [setFile, lookupFiles, he, h, hx]
    · by_cases hex : e.1 = x
      · simp [setFile, lookupFiles, he, hex, Ne.symm h]
      · simp [setFile, lookupFiles, he, hex, ih]

theorem mem_find_raw_files {fs : FS} {p : PPath} :
    p ∈ find_raw_files fs ↔
      p ∈ fs.files.map Prod.fst ∧ pyLower (pySuffix p.name) ∈ rawExtensions := by
  simp [find_raw_files, List.mem_filter]

theorem find_xmp_file_valid {fs : FS} {r x : PPath} (h : find_xmp_file fs r = some x) :
    pexists fs x = true ∧ is_valid_xmp_file fs x = true := by
  unfold find_xmp_file at h
  by_cases h1 : pexists fs (withName r (pyWithSuffix r.name (pySuffix r.name ++ ".xmp".toList)))
      && is_valid_xmp_file fs (withName r (pyWithSuffix r.name (pySuffix r.name ++ ".xmp".toList)))
  · rw [if_pos h1] at h
    cases h
    exact ⟨(Bool.and_eq_true_iff.mp h1).1, (Bool.and_eq_true_iff.mp h1).2⟩
  · rw [if_neg h1] at h
    by_cases h2 : pexists fs (withName r (pyWithSuffix r.name ".xmp".toList))
        && is_valid_xmp_file fs (withName r (pyWithSuffix r.name ".xmp".toList))
    · rw [if_pos h2] at h
      cases h
      exact ⟨(Bool.and_eq_true_iff.mp h2).1, (Bool.and_eq_true_iff.mp h2).2⟩
    · rw [if_neg h2] at h
      simp at h

theorem find_xmp_file_shape {fs : FS} {r x : PPath} (hsuf : pySuffix r.name ≠ [])
    (h : find_xmp_file fs r = some x) :
    ∃ stem, stem ≠ [] ∧ x.name = stem ++ ".xmp".toList ∧ x.dir = r.dir := by
  unfold find_xmp_file at h
  by_cases h1 : pexists fs (withName r (pyWithSuffix r.name (pySuffix r.name ++ ".xmp".toList)))
      && is_valid_xmp_file fs (withName r (pyWithSuffix r.name (pySuffix r.name ++ ".xmp".toList)))
  · rw [if_pos h1] at h
    cases h
    refine ⟨r.name, ?_, ?_, rfl⟩
    · intro hn
      exact hsuf (by simp [hn, pySuffix_nil])
    · show pyWithSuffix r.name (pySuffix r.name ++ ".xmp".toList) = r.name ++ ".xmp".toList
      rw [pyWithSuffix, ← List.append_assoc, pyStem_append_pySuffix]
  · rw [if_neg h1] at h
    by_cases h2 : pexists fs (withName r (pyWithSuffix r.name ".xmp".toList))
        && is_valid_xmp_file fs (withName r (pyWithSuffix r.name ".xmp".toList))
    · rw [if_pos h2] at h
      cases h
      exact ⟨pyStem r.name, pyStem_ne_nil hsuf, rfl, rfl⟩
    · rw [if_neg h2] at h
      simp at h

theorem dextend_apply (d : Name → List PPath) (k q : Name) (xs : List PPath) :
    dextend d k xs q = if q = k then d q ++ xs else d q := rfl

theorem redKey_ne_greenKey : ("red".toList : Name) ≠ "green".toList := by decide

theorem redKey_ne_unflaggedKey : ("red".toList : Name) ≠ "unflagged".toList := by decide

theorem greenKey_ne_unflaggedKey : ("green".toList : Name) ≠ "unflagged".toList := by decide

theorem foldl_analyzeStep_dict (fs : FS) (l : List PPath)
    (acc : Results × (Name → List PPath)) (k : Name) :
    (l.foldl (analyzeStep fs) acc).2 k =
      acc.2 k ++ (l.filterMap (pairFor fs k)).flatMap (fun q => [q.1, q.2]) := by
  induction l generalizing acc with
  | nil => simp
  | cons a t ih =>
    rw [List.foldl_cons, List.filterMap_cons, ih]
    unfold analyzeStep pairFor
    cases hfl : find_xmp_file fs a with
    | none => simp
    | some x =>
      simp only
      cases hp : (parse_xmp_flag fs x).1 with
      | none =>
        simp only [hp, bucketKey]
        by_cases hk : k = "unflagged".toList
        · subst hk
          simp [dextend_apply, List.append_assoc]
        · have hk2 : ¬ k = ['u', 'n', 'f', 'l', 'a', 'g', 'g', 'e', 'd'] := hk
          simp [dextend_apply, hk2, Ne.symm hk2]
      | some f =>
        cases f with
        | red =>
          simp only [hp, bucketKey]
          by_cases hk : k = "red".toList
          · subst hk
            simp [dextend_apply, List.append_assoc]
          · have hk2 : ¬ k = ['r', 'e', 'd'] := hk
            simp [dextend_apply, hk2, Ne.symm hk2]
        | green =>
          simp only [hp, bucketKey]
          by_cases hk : k = "green".toList
          · subst hk
            simp [dextend_apply, List.append_assoc]
          · have hk2 : ¬ k = ['g', 'r', 'e', 'e', 'n'] := hk
            simp [dextend_apply, hk2, Ne.symm hk2]

theorem analyze_photos_dict (fs : FS) (k : Name) :
    (analyze_photos fs).2 k = (classPairs fs k).flatMap (fun q => [q.1, q.2]) := by
  rw [analyze_photos, classPairs, foldl_analyzeStep_dict]
  rfl

theorem foldl_analyzeStep_skipped (fs : FS) (l : List PPath)
    (acc : Results × (Name → List PPath)) :
    (l.foldl (analyzeStep fs) acc).1.skipped_no_xmp =
      acc.1.skipped_no_xmp + l.countP (fun r => (find_xmp_file fs r).isNone) := by
  induction l generalizing acc with
  | nil => simp
  | cons a t ih =>
    rw [List.foldl_cons, ih]
    unfold analyzeStep
    cases hfl : find_xmp_file fs a with
    | none =>
      simp [List.countP_cons, hfl]
      omega
    | some x =>
      simp only
      cases hp : (parse_xmp_flag fs x).1 with
      | none => simp [hp, List.countP_cons, hfl]
      | some f => cases f <;> simp [hp, List.countP_cons, hfl]

theorem analyze_photos_skipped (fs : FS) :
    (analyze_photos fs).1.skipped_no_xmp =
      (find_raw_files fs).countP (fun r => (find_xmp_file fs r).isNone) := by
  rw [analyze_photos, foldl_analyzeStep_skipped]
  simp [initAcc]

theorem mem_classPairs {fs : FS} {k : Name} {q : PPath × PPath}
    (h : q ∈ classPairs fs k) :
    q.1 ∈ find_raw_files fs ∧ find_xmp_file fs q.1 = some q.2 ∧
      bucketKey (parse_xmp_flag fs q.2).1 = k := by
  rw [classPairs, List.mem_filterMap] at h
  obtain ⟨a, ha, hpa⟩ := h
  unfold pairFor at hpa
  split at hpa
  · simp at hpa
  · rename_i x hfl
    split at hpa
    · rename_i hb
      cases hpa
      exact ⟨ha, hfl, hb⟩
    · simp at hpa

theorem mem_bucket {fs : FS} {k : Name} {p : PPath}
    (h : p ∈ (analyze_photos fs).2 k) :
    ∃ q ∈ classPairs fs k, p = q.1 ∨ p = q.2 := by
  rw [analyze_photos_dict] at h
  rw [List.mem_flatMap] at h
  obtain ⟨q, hq, hp⟩ := h
  refine ⟨q, hq, ?_⟩
  simp at hp
  rcases hp with hp | hp
  · exact Or.inl hp
  · exact Or.inr hp

theorem classPairs_intro {fs : FS} {raw x : PPath}
    (hraw : raw ∈ find_raw_files fs) (hfind : find_xmp_file fs raw = some x) :
    (raw, x) ∈ classPairs fs (bucketKey (parse_xmp_flag fs x).1) := by
  rw [classPairs, List.mem_filterMap]
  refine ⟨raw, hraw, ?_⟩
  unfold pairFor
  rw [hfind]
  simp

theorem mem_bucket_intro {fs : FS} {raw x : PPath}
    (hraw : raw ∈ find_raw_files fs) (hfind : find_xmp_file fs raw = some x) :
    raw ∈ (analyze_photos fs).2 (bucketKey (parse_xmp_flag fs x).1) ∧
      x ∈ (analyze_photos fs).2 (bucketKey (parse_xmp_flag fs x).1) := by
  constructor
  · rw [analyze_photos_dict, List.mem_flatMap]
    exact ⟨(raw, x), classPairs_intro hraw hfind, by simp⟩
  · rw [analyze_photos_dict, List.mem_flatMap]
    exact ⟨(raw, x), classPairs_intro hraw hfind, by simp⟩

theorem length_pairs_flat (ps : List (PPath × PPath)) :
    (ps.flatMap (fun q => [q.1, q.2])).length = 2 * ps.length := by
  induction ps with
  | nil => rfl
  | cons a t ih =>
    simp only [List.flatMap_cons, List.length_append, ih, List.length_cons]
    simp
    ring

theorem bucketKey_cases (v : Option Flag) :
    bucketKey v = "red".toList ∨ bucketKey v = "green".toList ∨
      bucketKey v = "unflagged".toList := by
  cases v with
  | none => exact Or.inr (Or.inr rfl)
  | some f =>
    cases f with
    | red => exact Or.inl rfl
    | green => exact Or.inr (Or.inl rfl)

theorem classPairs_eq_nil_of_unknown {fs : FS} {k : Name}
    (h1 : k ≠ "red".toList) (h2 : k ≠ "green".toList) (h3 : k ≠ "unflagged".toList) :
    classPairs fs k = [] := by
  rw [classPairs, List.filterMap_eq_nil_iff]
  intro a _
  unfold pairFor
  cases hfl : find_xmp_file fs a with
  | none => rfl
  | some x =>
    have hb : bucketKey (parse_xmp_flag fs x).1 ≠ k := by
      rcases bucketKey_cases (parse_xmp_flag fs x).1 with hb | hb | hb <;> rw [hb]
      · exact fun hh => h1 hh.symm
      · exact fun hh => h2 hh.symm
      · exact fun hh => h3 hh.symm
    simp [hb]

theorem bucket_eq_nil_of_unknown (fs : FS) {k : Name}
    (h1 : k ≠ "red".toList) (h2 : k ≠ "green".toList) (h3 : k ≠ "unflagged".toList) :
    (analyze_photos fs).2 k = [] := by
  rw [analyze_photos_dict, classPairs_eq_nil_of_unknown h1 h2 h3]
  rfl

theorem lookup_mk (files : List (PPath × FileContent)) (dirs : List (List Name)) (p : PPath) :
    FS.lookup ⟨files, dirs⟩ p = lookupFiles p files := rfl

theorem moveStep_dirs (dest : List Name) (fs : FS) (r : PPath) :
    (moveStep dest fs r).dirs = mkdirAll fs.dirs (dest ++ [parentName r]) := by
  cases h : lookupFiles r fs.files <;>
    simp [moveStep, fsMove, FS.lookup, h]

theorem moveStep_lookup_other (dest : List Name) (fs : FS) (r x : PPath)
    (h1 : r ≠ x) (h2 : mvTarget dest r ≠ x) :
    (moveStep dest fs r).lookup x = fs.lookup x := by
  cases h : lookupFiles r fs.files with
  | none => simp [moveStep, fsMove, FS.lookup, h]
  | some c =>
    simp only [moveStep, fsMove, FS.lookup, h, lookup_mk]
    have h2a : ({ dir := dest ++ [parentName r], name := r.name } : PPath) ≠ x := h2
    rw [lookupFiles_setFile_ne c _ h2a, lookupFiles_eraseFile_ne _ h1]

theorem moveStep_lookup_tgt (dest : List Name) (fs : FS) (r : PPath)
    (hex : (fs.lookup r).isSome = true) :
    (moveStep dest fs r).lookup (mvTarget dest r) = fs.lookup r := by
  cases h : lookupFiles r fs.files with
  | none =>
    exfalso
    have hl : fs.lookup r = none := h
    rw [hl] at hex
    simp at hex
  | some c =>
    have hl : fs.lookup r = some c := h
    rw [hl]
    simp only [moveStep, fsMove, FS.lookup, h, lookup_mk]
    exact lookupFiles_setFile_self _ c _

theorem moveStep_lookup_self (dest : List Name) (fs : FS) (r : PPath)
    (hne : mvTarget dest r ≠ r) :
    (moveStep dest fs r).lookup r = none := by
  cases h : lookupFiles r fs.files with
  | none => simp [moveStep, fsMove, FS.lookup, h]
  | some c =>
    simp only [moveStep, fsMove, FS.lookup, h, lookup_mk]
    have hnea : ({ dir := dest ++ [parentName r], name := r.name } : PPath) ≠ r := hne
    rw [lookupFiles_setFile_ne c _ hnea]
    exact lookupFiles_eraseFile_self r fs.files

theorem mem_foldl_addDir_of_mem (l : List (List Name)) (dirs : List (List Name))
    {x : List Name} (h : x ∈ dirs) : x ∈ l.foldl addDir dirs := by
  induction l generalizing dirs with
  | nil => exact h
  | cons a t ih =>
    rw [List.foldl_cons]
    apply ih
    unfold addDir
    by_cases ha : a ∈ dirs
    · rw [if_pos ha]; exact h
    · rw [if_neg ha]; exact List.mem_cons_of_mem a h

theorem mem_mkdirAll_of_mem (dirs : List (List Name)) (d : List Name) {x : List Name}
    (h : x ∈ dirs) : x ∈ mkdirAll dirs d := by
  rw [mkdirAll]
  exact mem_foldl_addDir_of_mem _ _ h

theorem mem_addDir_self (dirs : List (List Name)) (d : List Name) : d ∈ addDir dirs d := by
  unfold addDir
  by_cases hd : d ∈ dirs
  · rw [if_pos hd]; exact hd
  · rw [if_neg hd]; exact List.mem_cons_self d dirs

theorem mem_mkdirAll_self (dirs : List (List Name)) (d : List Name) {x : List Name}
    (h : x ∈ prefixesOf d) : x ∈ mkdirAll dirs d := by
  rw [mkdirAll]
  generalize hl : prefixesOf d = l at h
  clear hl
  induction l generalizing dirs with
  | nil => simp at h
  | cons a t ih =>
    rw [List.foldl_cons]
    rcases List.mem_cons.mp h with rfl | h
    · exact mem_foldl_addDir_of_mem t _ (mem_addDir_self dirs x)
    · exact ih _ h

theorem moveRun_lookup_untouched (dest : List Name) (l : List PPath) (fs : FS) (x : PPath)
    (h : ∀ r ∈ l, r ≠ x ∧ mvTarget dest r ≠ x) :
    (l.foldl (moveStep dest) fs).lookup x = fs.lookup x := by
  induction l generalizing fs with
  | nil => rfl
  | cons a t ih =>
    rw [List.foldl_cons]
    rw [ih _ (fun r hr => h r (List.mem_cons_of_mem a hr))]
    exact moveStep_lookup_other dest fs a x (h a (List.mem_cons_self a t)).1
      (h a (List.mem_cons_self a t)).2

theorem moveRun_dirs_mono (dest : List Name) (l : List PPath) (fs : FS) {d : List Name}
    (h : d ∈ fs.dirs) : d ∈ (l.foldl (moveStep dest) fs).dirs := by
  induction l generalizing fs with
  | nil => exact h
  | cons a t ih =>
    rw [List.foldl_cons]
    apply ih
    rw [moveStep_dirs]
    exact mem_mkdirAll_of_mem _ _ h

theorem lookup_isSome_of_mem_bucket {fs : FS} {k : Name} {p : PPath}
    (h : p ∈ (analyze_photos fs).2 k) : (fs.lookup p).isSome = true := by
  obtain ⟨q, hq, hp⟩ := mem_bucket h
  obtain ⟨hraw, hfind, _⟩ := mem_classPairs hq
  rcases hp with rfl | rfl
  · exact lookupFiles_isSome_of_mem (mem_find_raw_files.mp hraw).1
  · exact (find_xmp_file_valid hfind).1

theorem moveRun_spec (dest : List Name) (l : List PPath) (fs : FS) (p : PPath)
    (hp : p ∈ l) (hnd : l.Nodup)
    (hinj : ∀ q ∈ l, mvTarget dest q = mvTarget dest p → q = p)
    (hdisj : ∀ q ∈ l, ∀ r ∈ l, mvTarget dest q ≠ r)
    (hex : ∀ q ∈ l, (fs.lookup q).isSome = true) :
    (l.foldl (moveStep dest) fs).lookup (mvTarget dest p) = fs.lookup p ∧
      (l.foldl (moveStep dest) fs).lookup p = none ∧
      ∀ pre ∈ prefixesOf (dest ++ [parentName p]),
        pre ∈ (l.foldl (moveStep dest) fs).dirs := by
  induction l generalizing fs with
  | nil => simp at hp
  | cons a t ih =>
    rw [List.foldl_cons]
    rcases List.mem_cons.mp hp with rfl | hpt
    · have hna : p ∉ t := (List.nodup_cons.mp hnd).1
      have huntouched : ∀ r ∈ t, r ≠ mvTarget dest p ∧ mvTarget dest r ≠ mvTarget dest p := by
        intro r hr
        constructor
        · intro hre
          exact hdisj p (List.mem_cons_self p t) r (List.mem_cons_of_mem p hr) hre.symm
        · intro hre
          exact hna ((hinj r (List.mem_cons_of_mem p hr) hre) ▸ hr)
      have huntouched2 : ∀ r ∈ t, r ≠ p ∧ mvTarget dest r ≠ p := by
        intro r hr
        constructor
        · intro hre
          exact hna (hre ▸ hr)
        · intro hre
          exact hdisj r (List.mem_cons_of_mem p hr) p (List.mem_cons_self p t) hre
      refine ⟨?_, ?_, ?_⟩
      · rw [moveRun_lookup_untouched dest t _ _ huntouched]
        exact moveStep_lookup_tgt dest fs p (hex p (List.mem_cons_self p t))
      · rw [moveRun_lookup_untouched dest t _ _ huntouched2]
        exact moveStep_lookup_self dest fs p
          (hdisj p (List.mem_cons_self p t) p (List.mem_cons_self p t))
      · intro pre hpre
        apply moveRun_dirs_mono
        rw [moveStep_dirs]
        exact mem_mkdirAll_self _ _ hpre
    · have hax : a ≠ p := by
        intro hre
        exact (List.nodup_cons.mp hnd).1 (hre ▸ hpt)
      have hex1 : ∀ q ∈ t, ((moveStep dest fs a).lookup q).isSome = true := by
        intro q hq
        rw [moveStep_lookup_other dest fs a q]
        · exact hex q (List.mem_cons_of_mem a hq)
        · intro hre
          exact (List.nodup_cons.mp hnd).1 (hre ▸ hq)
        · exact hdisj a (List.mem_cons_self a t) q (List.mem_cons_of_mem a hq)
      have hstep : (moveStep dest fs a).lookup p = fs.lookup p := by
        apply moveStep_lookup_other dest fs a p hax
        exact hdisj a (List.mem_cons_self a t) p (List.mem_cons_of_mem a hpt)
      obtain ⟨h1, h2, h3⟩ := ih (moveStep dest fs a) hpt (List.nodup_cons.mp hnd).2
        (fun q hq hqe => hinj q (List.mem_cons_of_mem a hq) hqe)
        (fun q hq r hr => hdisj q (List.mem_cons_of_mem a hq) r (List.mem_cons_of_mem a hr))
        hex1
      exact ⟨h1.trans hstep, h2, h3⟩

theorem unlinkRun_clean (failing : List PPath) (l : List PPath) (fs : FS)
    (h : ∀ p ∈ l, p ∉ failing) :
    (unlinkRun failing fs l).1 = l ∧ (unlinkRun failing fs l).2.2 = none := by
  induction l generalizing fs with
  | nil => exact ⟨rfl, rfl⟩
  | cons a t ih =>
    have ha : a ∉ failing := h a (List.mem_cons_self a t)
    obtain ⟨ih1, ih2⟩ := ih { fs with files := eraseFile a fs.files }
      (fun p hp => h p (List.mem_cons_of_mem a hp))
    unfold unlinkRun
    rw [if_neg ha]
    refine ⟨?_, ih2⟩
    show a :: (unlinkRun failing { fs with files := eraseFile a fs.files } t).1 = a :: t
    rw [ih1]

theorem unlinkRun_lookup_none (failing : List PPath) (l : List PPath) (fs : FS)
    {x : PPath} (h : lookupFiles x fs.files = none) :
    lookupFiles x (unlinkRun failing fs l).2.1.files = none := by
  induction l generalizing fs with
  | nil => exact h
  | cons a t ih =>
    unfold unlinkRun
    by_cases ha : a ∈ failing
    · rw [if_pos ha]
      exact h
    · rw [if_neg ha]
      apply ih
      show lookupFiles x (eraseFile a fs.files) = none
      by_cases hax : a = x
      · subst hax
        exact lookupFiles_eraseFile_self a fs.files
      · rw [lookupFiles_eraseFile_ne _ hax]
        exact h

theorem unlinkRun_deletes (failing : List PPath) (l : List PPath) (fs : FS)
    (h : ∀ p ∈ l, p ∉ failing) :
    ∀ p ∈ l, lookupFiles p (unlinkRun failing fs l).2.1.files = none := by
  induction l generalizing fs with
  | nil => intro p hp; simp at hp
  | cons a t ih =>
    intro p hp
    have ha : a ∉ failing := h a (List.mem_cons_self a t)
    unfold unlinkRun
    rw [if_neg ha]
    rcases List.mem_cons.mp hp with rfl | hpt
    · show lookupFiles p (unlinkRun failing _ t).2.1.files = none
      apply unlinkRun_lookup_none
      exact lookupFiles_eraseFile_self p fs.files
    · exact ih { fs with files := eraseFile a fs.files }
        (fun q hq => h q (List.mem_cons_of_mem a hq)) p hpt

theorem unlinkRun_fails (failing : List PPath) (pre : List PPath) (bad : PPath)
    (rest : List PPath) (fs : FS)
    (hpre : ∀ p ∈ pre, p ∉ failing) (hbad : bad ∈ failing) :
    (unlinkRun failing fs (pre ++ bad :: rest)).1 = pre ++ [bad] ∧
      (unlinkRun failing fs (pre ++ bad :: rest)).2.2.isSome = true := by
  induction pre generalizing fs with
  | nil =>
    simp only [List.nil_append]
    unfold unlinkRun
    rw [if_pos hbad]
    exact ⟨rfl, rfl⟩
  | cons a t ih =>
    have ha : a ∉ failing := hpre a (List.mem_cons_self a t)
    simp only [List.cons_append]
    unfold unlinkRun
    rw [if_neg ha]
    obtain ⟨ih1, ih2⟩ := ih { fs with files := eraseFile a fs.files }
      (fun p hp => hpre p (List.mem_cons_of_mem a hp))
    refine ⟨?_, ih2⟩
    show a :: (unlinkRun failing { fs with files := eraseFile a fs.files }
      (t ++ bad :: rest)).1 = a :: (t ++ [bad])
    rw [ih1]

/-- Claim C6: `is_valid_xmp_file` returns false exactly for candidates whose
name starts with a dot, whose size is unreadable or below 10 bytes, or whose
decoded first 100 bytes show none of the case-insensitive XML markers; it
returns true for every other candidate. -/
theorem claim6_validator_rules (fs : FS) (p : PPath) :
    is_valid_xmp_file fs p = true ↔ spec_is_valid_sidecar fs p := by
  constructor
  · intro hval
    by_cases hdot : ("._".toList.isPrefixOf p.name || ".".toList.isPrefixOf p.name) = true
    · rw [is_valid_xmp_file, if_pos hdot] at hval
      exact absurd hval (by simp)
    · rw [is_valid_xmp_file, if_neg hdot] at hval
      split at hval
      · simp at hval
      · rename_i s hs
        split at hval
        · simp at hval
        · rename_i hlt
          split at hval
          · simp at hval
          · rename_i t hh
            refine ⟨?_, ⟨s, hs, by omega⟩, ⟨t, hh, ?_⟩⟩
            · intro hpre
              apply hdot
              rw [Bool.or_eq_true]
              exact Or.inr ( List.isPrefixOf_iff_prefix.mpr hpre)
            · rw [List.any_eq_true] at hval
              obtain ⟨m, hm, hmc⟩ := hval
              exact ⟨m, hm, hmc⟩
  · rintro ⟨hdot, ⟨s, hs, hs10⟩, ⟨t, hh, m, hm, hmc⟩⟩
    have hb : ¬ (("._".toList.isPrefixOf p.name || ".".toList.isPrefixOf p.name) = true) := by
      intro hor
      rw [Bool.or_eq_true] at hor
      rcases hor with hor | hor
      · rw [ List.isPrefixOf_iff_prefix] at hor
        exact hdot ( List.IsPrefix.trans ⟨['_'], rfl⟩ hor)
      · exact hdot ( List.isPrefixOf_iff_prefix.mp hor)
    rw [is_valid_xmp_file, if_neg hb, hs]
    show (if s < 10 then false
      else match readHead fs p with
        | none => false
        | some t => xmpMarkers.any fun m => containsSub m (pyLower t)) = true
    rw [if_neg (by omega : ¬ s < 10), hh]
    show xmpMarkers.any (fun m => containsSub m (pyLower t)) = true
    rw [List.any_eq_true]
    exact ⟨m, hm, hmc⟩

/-- Claim C4: `find_xmp_file` checks the appended-suffix candidate
`<rawfile-name>.xmp` first and takes it when it exists and passes the
validator; only otherwise does it consider the replaced-suffix candidate
`<rawfile-stem>.xmp`; when neither exists and is valid it returns none, and
when both qualify the appended form wins. -/
theorem claim4_resolver_order (fs : FS) (raw : PPath) :
    find_xmp_file fs raw =
      (if pexists fs ⟨raw.dir, raw.name ++ ".xmp".toList⟩ &&
          is_valid_xmp_file fs ⟨raw.dir, raw.name ++ ".xmp".toList⟩ then
        some ⟨raw.dir, raw.name ++ ".xmp".toList⟩
      else if pexists fs ⟨raw.dir, pyStem raw.name ++ ".xmp".toList⟩ &&
          is_valid_xmp_file fs ⟨raw.dir, pyStem raw.name ++ ".xmp".toList⟩ then
        some ⟨raw.dir, pyStem raw.name ++ ".xmp".toList⟩
      else none) := by
  have hc1 : withName raw (pyWithSuffix raw.name (pySuffix raw.name ++ ".xmp".toList)) =
      (⟨raw.dir, raw.name ++ ".xmp".toList⟩ : PPath) := by
    simp only [withName, pyWithSuffix]
    rw [← List.append_assoc, pyStem_append_pySuffix]
  have hc2 : withName raw (pyWithSuffix raw.name ".xmp".toList) =
      (⟨raw.dir, pyStem raw.name ++ ".xmp".toList⟩ : PPath) := rfl
  simp only [find_xmp_file]
  rw [hc1, hc2]

/-- Claim C3: every bucket of the classification result is the flattening of
its raw/sidecar pairs (each classified raw file contributes its own path
followed by its resolved sidecar path, in that order), so every bucket length
is even. -/
theorem claim3_pair_invariant (fs : FS) (k : Name) (q : PPath × PPath)
    (hq : q ∈ classPairs fs k) :
    (analyze_photos fs).2 k = (classPairs fs k).flatMap (fun z => [z.1, z.2]) ∧
    2 * (classPairs fs k).length = ((analyze_photos fs).2 k).length ∧
    q.1 ∈ find_raw_files fs ∧ find_xmp_file fs q.1 = some q.2 := by
  refine ⟨analyze_photos_dict fs k, ?_, (mem_classPairs hq).1, (mem_classPairs hq).2.1⟩
  rw [analyze_photos_dict, length_pairs_flat]

/-- Claim C3 witness: the red bucket of the worked example is the flattening
of its single raw/sidecar pair. -/
theorem claim3_pair_invariant_witness :
    (analyze_photos exFS).2 "red".toList =
      (classPairs exFS "red".toList).flatMap (fun z => [z.1, z.2]) ∧
    2 * (classPairs exFS "red".toList).length =
      ((analyze_photos exFS).2 "red".toList).length ∧
    (rawP, xmpP).1 ∈ find_raw_files exFS ∧
    find_xmp_file exFS (rawP, xmpP).1 = some (rawP, xmpP).2 :=
  claim3_pair_invariant exFS "red".toList (rawP, xmpP) (by decide)

/-- Claim C1: a sidecar whose extracted label text lowercases and strips to
exactly `red`/`reject` yields flag red, to `green`/`approved`/`select` yields
green; any other label text and a missing label element yield no flag, and a
raw file whose sidecar yields no flag is classified unflagged. -/
theorem claim1_label_mapping (fs : FS) (p pe : PPath) (c ce : FileContent)
    (t : Name) (attrs : List (Option Name)) (raw : PPath)
    (hc : fs.lookup p = some c) (hv : is_valid_xmp_file fs p = true)
    (hparse : c.parse = ParseOutcome.ok ⟨[some t], attrs⟩)
    (hce : fs.lookup pe = some ce) (hve : is_valid_xmp_file fs pe = true)
    (hpe : ce.parse = ParseOutcome.ok ⟨[], []⟩)
    (hraw : raw ∈ find_raw_files fs) (hfind : find_xmp_file fs raw = some pe) :
    (parse_xmp_flag fs p).1 = spec_label_flag t ∧
    (parse_xmp_flag fs pe).1 = none ∧
    raw ∈ (analyze_photos fs).2 "unflagged".toList := by
  have hcond : ¬ (is_valid_xmp_file fs p = false) := by rw [hv]; simp
  have hconde : ¬ (is_valid_xmp_file fs pe = false) := by rw [hve]; simp
  have hscan : scanLabels [some t] = matchLabel t := by
    by_cases ht : t = []
    · subst ht
      have hm : matchLabel ([] : Name) = none := by decide
      simp [scanLabels, hm]
    · cases hm : matchLabel t <;> simp [scanLabels, ht, hm]
  have hmain : docFlag ⟨[some t], attrs⟩ = spec_label_flag t := by
    have hd : docFlag ⟨[some t], attrs⟩ = scanLabels [some t] := by
      simp [docFlag]
    rw [hd, hscan]
    rfl
  have h1 : (parse_xmp_flag fs p).1 = spec_label_flag t := by
    simp [parse_xmp_flag, hcond, hc, hparse, hmain]
  have h2 : (parse_xmp_flag fs pe).1 = none := by
    simp [parse_xmp_flag, hconde, hce, hpe, docFlag, scanLabels]
  have hkey : bucketKey (parse_xmp_flag fs pe).1 = "unflagged".toList := by
    rw [h2]
    rfl
  have hb := mem_bucket_intro hraw hfind
  rw [hkey] at hb
  exact ⟨h1, h2, hb.1⟩

/-- Claim C1 witness: in the worked example the `Red`-labelled sidecar maps to
flag red and the label-less sidecar maps to no flag, its pair landing in the
unflagged bucket. -/
theorem claim1_label_mapping_witness :
    (parse_xmp_flag exFS xmpP).1 = spec_label_flag "Red".toList ∧
    (parse_xmp_flag exFS xmpD).1 = none ∧
    rawD ∈ (analyze_photos exFS).2 "unflagged".toList :=
  claim1_label_mapping exFS xmpP xmpD xmpRedContent xmpEmptyContent "Red".toList [] rawD
    (by decide) (by decide) rfl (by decide) (by decide) rfl (by decide) (by decide)

/-- Claim C5: a raw file with no resolvable valid sidecar only bumps the
skipped counter (leaving the buckets untouched), appears in no bucket of the
classification, the skipped counter counts exactly the raw files without a
resolved sidecar, and any sidecar the resolver hands to the extractor passed
the validator. -/
theorem claim5_skipped_no_sidecar (fs : FS) (raw : PPath)
    (acc : Results × (Name → List PPath)) (k : Name) (r x : PPath)
    (hraw : raw ∈ find_raw_files fs) (hno : find_xmp_file fs raw = none)
    (hrx : find_xmp_file fs r = some x) :
    analyzeStep fs acc raw =
      ({ acc.1 with skipped_no_xmp := acc.1.skipped_no_xmp + 1 }, acc.2) ∧
    raw ∉ (analyze_photos fs).2 k ∧
    (analyze_photos fs).1.skipped_no_xmp =
      (find_raw_files fs).countP (fun q => (find_xmp_file fs q).isNone) ∧
    is_valid_xmp_file fs x = true := by
  refine ⟨by simp [analyzeStep, hno], ?_, analyze_photos_skipped fs,
    (find_xmp_file_valid hrx).2⟩
  intro hmem
  obtain ⟨q, hq, hp⟩ := mem_bucket hmem
  obtain ⟨hq1, hq2, _⟩ := mem_classPairs hq
  rcases hp with rfl | rfl
  · rw [hno] at hq2
    exact Option.noConfusion hq2
  · have hsufq : pySuffix q.1.name ≠ [] :=
      pySuffix_ne_nil_of_raw (mem_find_raw_files.mp hq1).2
    obtain ⟨stem, hstem, hname, _⟩ := find_xmp_file_shape hsufq hq2
    have hrawext : pyLower (pySuffix q.2.name) ∈ rawExtensions :=
      (mem_find_raw_files.mp hraw).2
    rw [hname, pySuffix_append_xmp hstem] at hrawext
    exact xmp_not_rawExt hrawext

/-- Claim C5 witness: the sidecar-less `c.arw` of the worked example only
bumps the skipped counter and sits in no bucket, while the resolved sidecar of
`a.cr2` passed the validator. -/
theorem claim5_skipped_no_sidecar_witness :
    analyzeStep exFS initAcc rawC =
      ({ initAcc.1 with skipped_no_xmp := initAcc.1.skipped_no_xmp + 1 }, initAcc.2) ∧
    rawC ∉ (analyze_photos exFS).2 "red".toList ∧
    (analyze_photos exFS).1.skipped_no_xmp =
      (find_raw_files exFS).countP (fun q => (find_xmp_file exFS q).isNone) ∧
    is_valid_xmp_file exFS xmpP = true :=
  claim5_skipped_no_sidecar exFS rawC initAcc "red".toList rawP xmpP
    (by decide) (by decide) (by decide)

/-- Claim C9: a sidecar that passed the validator but fails XML parsing or
text decoding yields no flag instead of raising, the warning logged names the
offending file, and the classifier places the raw/sidecar pair in the
unflagged bucket. -/
theorem claim9_parse_failure (fs : FS) (p : PPath) (c : FileContent) (raw : PPath)
    (e : Name)
    (hc : fs.lookup p = some c) (hv : is_valid_xmp_file fs p = true)
    (hbad : c.parse = ParseOutcome.parseError e ∨ c.parse = ParseOutcome.decodeError e)
    (hraw : raw ∈ find_raw_files fs) (hfind : find_xmp_file fs raw = some p) :
    (parse_xmp_flag fs p).1 = none ∧
    (parse_xmp_flag fs p).2.any (containsSub p.name) = true ∧
    raw ∈ (analyze_photos fs).2 "unflagged".toList ∧
    p ∈ (analyze_photos fs).2 "unflagged".toList := by
  have hcond : ¬ (is_valid_xmp_file fs p = false) := by rw [hv]; simp
  have hex : ∃ A B, parse_xmp_flag fs p = (none, [A ++ (p.name ++ B)]) := by
    rcases hbad with hbad | hbad
    · exact ⟨"Warning: Skipping malformed XMP File: ".toList, ": ".toList ++ e, by
        simp [parse_xmp_flag, hcond, hc, hbad]⟩
    · exact ⟨"Warning: Encoding error in XMP File: ".toList, ": ".toList ++ e, by
        simp [parse_xmp_flag, hcond, hc, hbad]⟩
  obtain ⟨A, B, hpf⟩ := hex
  have h1 : (parse_xmp_flag fs p).1 = none := by rw [hpf]
  have hkey : bucketKey (parse_xmp_flag fs p).1 = "unflagged".toList := by
    rw [h1]
    rfl
  have hb := mem_bucket_intro hraw hfind
  rw [hkey] at hb
  refine ⟨h1, ?_, hb.1, hb.2⟩
  rw [hpf]
  simp only [List.any_cons, List.any_nil, Bool.or_false]
  exact containsSub_of_append p.name A B

/-- Claim C9 witness: the malformed sidecar of `b.nef` in the worked example
yields no flag, logs a warning naming the file, and the pair lands in the
unflagged bucket. -/
theorem claim9_parse_failure_witness :
    (parse_xmp_flag exFS xmpB).1 = none ∧
    (parse_xmp_flag exFS xmpB).2.any (containsSub xmpB.name) = true ∧
    rawB ∈ (analyze_photos exFS).2 "unflagged".toList ∧
    xmpB ∈ (analyze_photos exFS).2 "unflagged".toList :=
  claim9_parse_failure exFS xmpB xmpBadContent rawB "not well-formed".toList
    (by decide) (by decide) (Or.inl rfl) (by decide) (by decide)

/-- Claim C7: relocate moves every file of the target bucket to
`destination/<immediate-parent-directory-name>/`, creating that subdirectory
and its missing ancestors, and reports the number of moved files; stated for
buckets whose entries and move targets do not collide. -/
theorem claim7_relocate (fs : FS) (flag : Name) (dest : List Name) (p : PPath)
    (pre : List Name)
    (hp : p ∈ (analyze_photos fs).2 flag)
    (hnd : ((analyze_photos fs).2 flag).Nodup)
    (hinj : ∀ q ∈ (analyze_photos fs).2 flag, mvTarget dest q = mvTarget dest p → q = p)
    (hdisj : ∀ q ∈ (analyze_photos fs).2 flag, ∀ r ∈ (analyze_photos fs).2 flag,
      mvTarget dest q ≠ r)
    (hpre : pre ∈ prefixesOf (dest ++ [parentName p])) :
    mvTarget dest p = ⟨dest ++ [parentName p], p.name⟩ ∧
    (fs.lookup p).isSome = true ∧
    (move_by_flag_and_copy_dir_structure fs flag dest).1.lookup (mvTarget dest p) =
      fs.lookup p ∧
    (move_by_flag_and_copy_dir_structure fs flag dest).1.lookup p = none ∧
    pre ∈ (move_by_flag_and_copy_dir_structure fs flag dest).1.dirs ∧
    (move_by_flag_and_copy_dir_structure fs flag dest).2 =
      ((analyze_photos fs).2 flag).length := by
  have hex : ∀ q ∈ (analyze_photos fs).2 flag, (fs.lookup q).isSome = true :=
    fun q hq => lookup_isSome_of_mem_bucket hq
  obtain ⟨h1, h2, h3⟩ := moveRun_spec dest ((analyze_photos fs).2 flag) fs p
    hp hnd hinj hdisj hex
  exact ⟨rfl, hex p hp, h1, h2, h3 pre hpre, rfl⟩

/-- Claim C7 witness: relocating red files of the worked example to `E` moves
`a.cr2` into `E/sub1/`, removes it from `D/sub1/`, and creates `E` and
`E/sub1`. -/
theorem claim7_relocate_witness :
    mvTarget ["E".toList] rawP = ⟨["E".toList] ++ [parentName rawP], rawP.name⟩ ∧
    (exFS.lookup rawP).isSome = true ∧
    (move_by_flag_and_copy_dir_structure exFS "red".toList ["E".toList]).1.lookup
      (mvTarget ["E".toList] rawP) = exFS.lookup rawP ∧
    (move_by_flag_and_copy_dir_structure exFS "red".toList ["E".toList]).1.lookup rawP =
      none ∧
    ["E".toList, "sub1".toList] ∈
      (move_by_flag_and_copy_dir_structure exFS "red".toList ["E".toList]).1.dirs ∧
    (move_by_flag_and_copy_dir_structure exFS "red".toList ["E".toList]).2 =
      ((analyze_photos exFS).2 "red".toList).length :=
  claim7_relocate exFS "red".toList ["E".toList] rawP ["E".toList, "sub1".toList]
    (by decide) (by decide) (by decide) (by decide) (by decide)

/-- Claim C2 counterexample: in the worked example, deleting the red bucket
with an unlink failure on its first file (`a.cr2`) attempts no further
deletion — the sidecar `a.cr2.xmp` is in the bucket but is never attempted
and survives — and no summary is printed: the failure propagates as an
uncaught exception, contradicting the claim that one failure does not prevent
attempting the remaining files and is surfaced as an error summary. -/
theorem claim2_remove_counterexample :
    xmpP ∈ (analyze_photos exFS).2 "red".toList ∧
    (delete_by_flag [rawP] exFS "red".toList false).attempted = [rawP] ∧
    xmpP ∉ (delete_by_flag [rawP] exFS "red".toList false).attempted ∧
    (delete_by_flag [rawP] exFS "red".toList false).raised.isSome = true ∧
    (delete_by_flag [rawP] exFS "red".toList false).printedPairs = none ∧
    ((delete_by_flag [rawP] exFS "red".toList false).fs.lookup xmpP).isSome = true := by
  decide

/-- Claim C2 (amended): with simulate false, remove attempts to unlink the
bucket's files in order; when no deletion fails it deletes every file and
prints the pair-count summary, but a deletion failure raises an uncaught
exception that aborts the remaining deletions and skips the summary — the
failure surfaces as a propagated exception, not as an error summary. -/
theorem claim2_remove_failure (failing1 : List PPath) (fs1 : FS) (flag1 : Name)
    (p1 : PPath) (failing2 : List PPath) (fs2 : FS) (flag2 : Name)
    (pre : List PPath) (bad : PPath) (rest : List PPath)
    (hclean : ∀ p ∈ (analyze_photos fs1).2 flag1, p ∉ failing1)
    (hp1 : p1 ∈ (analyze_photos fs1).2 flag1)
    (hsplit : (analyze_photos fs2).2 flag2 = pre ++ bad :: rest)
    (hpre : ∀ p ∈ pre, p ∉ failing2) (hbad : bad ∈ failing2) :
    (delete_by_flag failing1 fs1 flag1 false).raised = none ∧
    (delete_by_flag failing1 fs1 flag1 false).attempted = (analyze_photos fs1).2 flag1 ∧
    (delete_by_flag failing1 fs1 flag1 false).printedPairs =
      some ((((analyze_photos fs1).2 flag1).length : ℚ) / 2) ∧
    (delete_by_flag failing1 fs1 flag1 false).fs.lookup p1 = none ∧
    (delete_by_flag failing2 fs2 flag2 false).attempted = pre ++ [bad] ∧
    (delete_by_flag failing2 fs2 flag2 false).raised.isSome = true ∧
    (delete_by_flag failing2 fs2 flag2 false).printedPairs = none := by
  have hA := unlinkRun_clean failing1 ((analyze_photos fs1).2 flag1) fs1 hclean
  have eA : delete_by_flag failing1 fs1 flag1 false =
      ⟨(unlinkRun failing1 fs1 ((analyze_photos fs1).2 flag1)).2.1,
        (unlinkRun failing1 fs1 ((analyze_photos fs1).2 flag1)).1, none,
        some ((((analyze_photos fs1).2 flag1).length : ℚ) / 2)⟩ := by
    simp only [delete_by_flag, Bool.not_false, if_true]
    rw [hA.2]
  have hB := unlinkRun_fails failing2 pre bad rest fs2 hpre hbad
  obtain ⟨e, he⟩ := Option.isSome_iff_exists.mp hB.2
  have eB : delete_by_flag failing2 fs2 flag2 false =
      ⟨(unlinkRun failing2 fs2 (pre ++ bad :: rest)).2.1,
        (unlinkRun failing2 fs2 (pre ++ bad :: rest)).1, some e, none⟩ := by
    simp only [delete_by_flag, Bool.not_false, if_true, hsplit]
    rw [he]
  refine ⟨by rw [eA], by rw [eA]; exact hA.1, by rw [eA], ?_, by rw [eB]; exact hB.1,
    by rw [eB]; rfl, by rw [eB]⟩
  rw [eA]
  exact unlinkRun_deletes failing1 ((analyze_photos fs1).2 flag1) fs1 hclean p1 hp1

/-- Claim C2 witness: in the worked example a failure-free run deletes both
red files and prints the pair count, while a run whose first unlink fails
attempts only that file, raises, and prints nothing. -/
theorem claim2_remove_failure_witness :
    (delete_by_flag [] exFS "red".toList false).raised = none ∧
    (delete_by_flag [] exFS "red".toList false).attempted =
      (analyze_photos exFS).2 "red".toList ∧
    (delete_by_flag [] exFS "red".toList false).printedPairs =
      some ((((analyze_photos exFS).2 "red".toList).length : ℚ) / 2) ∧
    (delete_by_flag [] exFS "red".toList false).fs.lookup rawP = none ∧
    (delete_by_flag [rawP] exFS "red".toList false).attempted = [] ++ [rawP] ∧
    (delete_by_flag [rawP] exFS "red".toList false).raised.isSome = true ∧
    (delete_by_flag [rawP] exFS "red".toList false).printedPairs = none :=
  claim2_remove_failure [] exFS "red".toList rawP [rawP] exFS "red".toList
    [] rawP [xmpP] (by decide) (by decide) (by decide) (by decide) (by decide)

/-- Claim C8: remove with simulate true mutates nothing — the tree, the
attempted unlink list and the raised exception are untouched — and prints the
pair count that a failure-free real run would delete (the real run attempts
exactly the bucket, which holds two entries per classified pair). -/
theorem claim8_simulate (failing : List PPath) (fs : FS) (flag : Name) :
    delete_by_flag failing fs flag true =
      ⟨fs, [], none, some ((((analyze_photos fs).2 flag).length : ℚ) / 2)⟩ ∧
    (delete_by_flag [] fs flag false).attempted = (analyze_photos fs).2 flag ∧
    (delete_by_flag failing fs flag true).printedPairs =
      some (((classPairs fs flag).length : ℚ)) ∧
    2 * (classPairs fs flag).length = ((analyze_photos fs).2 flag).length := by
  have hlen : ((analyze_photos fs).2 flag).length = 2 * (classPairs fs flag).length := by
    rw [analyze_photos_dict, length_pairs_flat]
  have e1 : delete_by_flag failing fs flag true =
      ⟨fs, [], none, some ((((analyze_photos fs).2 flag).length : ℚ) / 2)⟩ := by
    simp [delete_by_flag]
  have hclean : ∀ p ∈ (analyze_photos fs).2 flag, p ∉ ([] : List PPath) := by
    intro p hp
    simp
  have hA := unlinkRun_clean [] ((analyze_photos fs).2 flag) fs hclean
  have e2 : (delete_by_flag [] fs flag false).attempted = (analyze_photos fs).2 flag := by
    simp only [delete_by_flag, Bool.not_false, if_true]
    rw [hA.2]
    exact hA.1
  refine ⟨e1, e2, ?_, hlen.symm⟩
  rw [e1]
  show some ((((analyze_photos fs).2 flag).length : ℚ) / 2) =
    some (((classPairs fs flag).length : ℚ))
  rw [hlen]
  congr 1
  push_cast
  ring

/-- Claim C10: for a flag outside red/green/unflagged the classification
bucket is empty (the defaultdict yields an empty list instead of raising), so
relocate moves nothing and reports zero, and remove deletes nothing and
reports zero. -/
theorem claim10_unknown_flag (fs : FS) (flag : Name) (dest : List Name)
    (failing : List PPath)
    (h1 : flag ≠ "red".toList) (h2 : flag ≠ "green".toList)
    (h3 : flag ≠ "unflagged".toList) :
    (analyze_photos fs).2 flag = [] ∧
    move_by_flag_and_copy_dir_structure fs flag dest = (fs, 0) ∧
    delete_by_flag failing fs flag false = ⟨fs, [], none, some 0⟩ := by
  have hb := bucket_eq_nil_of_unknown fs h1 h2 h3
  refine ⟨hb, ?_, ?_⟩
  · simp only [move_by_flag_and_copy_dir_structure, hb]
    rfl
  · simp [delete_by_flag, hb, unlinkRun]

/-- Claim C10 witness: in the worked example the flag `blue` yields an empty
bucket, a no-op relocate reporting zero and a no-op remove reporting zero. -/
theorem claim10_unknown_flag_witness :
    (analyze_photos exFS).2 "blue".toList = [] ∧
    move_by_flag_and_copy_dir_structure exFS "blue".toList ["E".toList] = (exFS, 0) ∧
    delete_by_flag [] exFS "blue".toList false = ⟨exFS, [], none, some 0⟩ :=
  claim10_unknown_flag exFS "blue".toList ["E".toList] []
    (by decide) (by decide) (by decide)
